import Mathlib

/-!
# Verification of the `agentLoop` control loop (`src/index.ts`)

The repository exports a single function `agentLoop` driving iterative calls
to a caller-supplied responder (`llmCaller`) until a caller-supplied predicate
(`stopCondition`) returns true or an iteration budget (`maxLoops`, default 10)
is exhausted, optionally threading state through `updateContext`.

The embedding is monad-generic: the TypeScript `async`/`await` structure is
modelled by a monad `m`, `await` by monadic bind. Instantiating `m` at
  * `Id` gives the pure behaviour,
  * a writer-style trace monad `TraceM` records every callback invocation
    (used to count invocations and inspect the arguments passed), and
  * `Except ε` models callbacks that reject, verifying error propagation.

JavaScript numbers used as the `maxLoops` bound are modelled as `Int`
(the source never validates the bound, so negative values are representable);
the iteration counter, which starts at 0 and is only incremented, is a `Nat`.
-/

/-- The `reason` field of the result: the string union
`'stop_condition' | 'max_loops'` from the source. -/
inductive LoopReason where
  | stop_condition
  | max_loops
deriving DecidableEq, Repr

/-- Options for the agent loop, mirroring `AgentLoopOptions<TResponse, TContext>`.
`maxLoops` defaults to 10 as in the source destructuring `maxLoops = 10`;
`updateContext` is optional. -/
structure AgentLoopOptions (m : Type → Type) (TResponse TContext : Type) where
  llmCaller : TContext → m TResponse
  stopCondition : TResponse → TContext → m Bool
  maxLoops : Int := 10
  updateContext : Option (TResponse → TContext → m TContext) := none
  initialContext : TContext

/-- Result of the agent loop, mirroring `AgentLoopResult<TResponse, TContext>`. -/
structure AgentLoopResult (TResponse TContext : Type) where
  finalContext : TContext
  lastResponse : Option TResponse
  reason : LoopReason
  iterations : Nat
deriving DecidableEq, Repr

/-- The body of `agentLoop`'s `while (iterations < maxLoops)` loop, with the
mutable locals `currentContext`, `lastResponse`, `iterations` made explicit
parameters. Each iteration increments `iterations`, awaits
`llmCaller(currentContext)`, awaits `stopCondition(response, currentContext)`,
returns with reason `'stop_condition'` if it holds, otherwise awaits
`updateContext(response, currentContext)` when supplied and continues; when
the guard fails the loop returns with reason `'max_loops'`. -/
def agentLoop.go {m : Type → Type} [Monad m] {TResponse TContext : Type}
    (options : AgentLoopOptions m TResponse TContext)
    (currentContext : TContext) (lastResponse : Option TResponse)
    (iterations : Nat) : m (AgentLoopResult TResponse TContext) :=
  if h : (iterations : Int) < options.maxLoops then do
    let iterations := iterations + 1
    let response ← options.llmCaller currentContext
    let lastResponse := some response
    let shouldStop ← options.stopCondition response currentContext
    if shouldStop then
      pure { finalContext := currentContext, lastResponse := lastResponse,
             reason := .stop_condition, iterations := iterations }
    else
      match options.updateContext with
      | some updateContext => do
          let nextContext ← updateContext response currentContext
          agentLoop.go options nextContext lastResponse iterations
      | none => agentLoop.go options currentContext lastResponse iterations
  else
    pure { finalContext := currentContext, lastResponse := lastResponse,
           reason := .max_loops, iterations := iterations }
termination_by (options.maxLoops - iterations).toNat
decreasing_by
  all_goals omega

/-- Runs an agent loop: `agentLoop(options)` from the source, starting from
`initialContext`, no `lastResponse`, and `iterations = 0`. -/
def agentLoop {m : Type → Type} [Monad m] {TResponse TContext : Type}
    (options : AgentLoopOptions m TResponse TContext) :
    m (AgentLoopResult TResponse TContext) :=
  agentLoop.go options options.initialContext none 0

/-- One observable callback invocation performed by the loop, together with
the arguments it was given and the value it returned. -/
inductive LoopEvent (TResponse TContext : Type) where
  | llmCall (context : TContext) (response : TResponse)
  | stopCall (response : TResponse) (context : TContext) (result : Bool)
  | updateCall (response : TResponse) (context : TContext) (next : TContext)
deriving DecidableEq, Repr

/-- Writer-style monad recording the sequence of callback invocations. -/
def TraceM (TResponse TContext α : Type) : Type :=
  α × List (LoopEvent TResponse TContext)

instance : Monad (TraceM TResponse TContext) where
  pure a := (a, [])
  bind x f := ((f x.1).1, x.2 ++ (f x.1).2)

theorem TraceM.bind_def {R C α β : Type} (x : TraceM R C α) (f : α → TraceM R C β) :
    x >>= f = ((f x.1).1, x.2 ++ (f x.1).2) := rfl

theorem TraceM.pure_def {R C α : Type} (a : α) :
    (pure a : TraceM R C α) = (a, []) := rfl

/-- A configuration whose callbacks are pure functions, instrumented to log
each invocation: the observable behaviour of `agentLoop` on an arbitrary
(effect-free) configuration. -/
def tracedOptions {R C : Type} (llm : C → R) (stop : R → C → Bool) (M : Int)
    (upd : Option (R → C → C)) (c0 : C) :
    AgentLoopOptions (TraceM R C) R C where
  llmCaller c := (llm c, [.llmCall c (llm c)])
  stopCondition r c := (stop r c, [.stopCall r c (stop r c)])
  maxLoops := M
  updateContext := upd.map (fun f r c => (f r c, [.updateCall r c (f r c)]))
  initialContext := c0

/-- Runs `agentLoop` on the instrumented configuration, yielding the result
together with the full trace of callback invocations. -/
def tracedAgentLoop {R C : Type} (llm : C → R) (stop : R → C → Bool) (M : Int)
    (upd : Option (R → C → C)) (c0 : C) :
    AgentLoopResult R C × List (LoopEvent R C) :=
  agentLoop (tracedOptions llm stop M upd c0)

/-- Fuel-indexed pure reference model of the instrumented loop: `loopSpec
llm stop upd fuel c lr n` describes `agentLoop.go` when `fuel` iterations
remain. Structural in `fuel`, hence convenient for induction and for kernel
evaluation. -/
def loopSpec {R C : Type} (llm : C → R) (stop : R → C → Bool)
    (upd : Option (R → C → C)) :
    Nat → C → Option R → Nat → AgentLoopResult R C × List (LoopEvent R C)
  | 0, c, lr, n => (⟨c, lr, .max_loops, n⟩, [])
  | fuel+1, c, lr, n =>
    let r := llm c
    if stop r c then
      (⟨c, some r, .stop_condition, n+1⟩, [.llmCall c r, .stopCall r c true])
    else
      match upd with
      | some f =>
        let next := f r c
        let p := loopSpec llm stop upd fuel next (some r) (n+1)
        (p.1, .llmCall c r :: .stopCall r c false :: .updateCall r c next :: p.2)
      | none =>
        let p := loopSpec llm stop upd fuel c (some r) (n+1)
        (p.1, .llmCall c r :: .stopCall r c false :: p.2)

/-- `agentLoop.go` on the instrumented configuration agrees with the pure
reference model when the fuel equals the remaining iteration budget. -/
theorem agentLoop.go_traced_eq {R C : Type} (llm : C → R) (stop : R → C → Bool)
    (M : Int) (upd : Option (R → C → C)) (c0 : C) :
    ∀ (fuel : Nat) (c : C) (lr : Option R) (n : Nat), (M - n).toNat = fuel →
      agentLoop.go (tracedOptions llm stop M upd c0) c lr n =
        loopSpec llm stop upd fuel c lr n := by
  intro fuel
  induction fuel with
  | zero =>
    intro c lr n hfuel
    rw [agentLoop.go]
    have hlt : ¬ ((n : Int) < (tracedOptions llm stop M upd c0).maxLoops) := by
      simp only [tracedOptions]; omega
    simp only [dif_neg hlt, loopSpec, TraceM.pure_def]
  | succ fuel ih =>
    intro c lr n hfuel
    rw [agentLoop.go]
    have hlt : (n : Int) < (tracedOptions llm stop M upd c0).maxLoops := by
      simp only [tracedOptions]; omega
    rw [dif_pos hlt]
    have hrec : (M - ((n + 1 : Nat) : Int)).toNat = fuel := by omega
    cases hstop : stop (llm c) c with
    | true =>
      simp [tracedOptions, TraceM.bind_def, TraceM.pure_def, loopSpec, hstop]
    | false =>
      cases upd with
      | none =>
        have hih := ih c (some (llm c)) (n + 1) hrec
        simp [tracedOptions, TraceM.bind_def, TraceM.pure_def, loopSpec, hstop] at hih ⊢
        simp [hih]
      | some f =>
        have hih := ih (f (llm c) c) (some (llm c)) (n + 1) hrec
        simp [tracedOptions, TraceM.bind_def, TraceM.pure_def, loopSpec, hstop] at hih ⊢
        simp [hih]

/-- The traced run equals the reference model with fuel `maxLoops.toNat`. -/
theorem tracedAgentLoop_eq {R C : Type} (llm : C → R) (stop : R → C → Bool)
    (M : Int) (upd : Option (R → C → C)) (c0 : C) :
    tracedAgentLoop llm stop M upd c0 = loopSpec llm stop upd M.toNat c0 none 0 := by
  unfold tracedAgentLoop agentLoop
  exact agentLoop.go_traced_eq llm stop M upd c0 M.toNat c0 none 0 (by omega)

/-- The state transition one non-terminating iteration applies to the
current context: `updateContext(response, context)` when supplied, the
identity otherwise. -/
def stepCtx {R C : Type} (llm : C → R) (upd : Option (R → C → C)) (c : C) : C :=
  match upd with
  | some f => f (llm c) c
  | none => c

/-- The context at the start of iteration `i + 1` (0-indexed: `ctxSeq 0 = c0`
is passed to `llmCaller` on the first iteration), assuming no earlier
iteration stopped. -/
def ctxSeq {R C : Type} (llm : C → R) (upd : Option (R → C → C)) (c0 : C) :
    Nat → C
  | 0 => c0
  | i + 1 => stepCtx llm upd (ctxSeq llm upd c0 i)

theorem ctxSeq_shift {R C : Type} (llm : C → R) (upd : Option (R → C → C))
    (c0 : C) (i : Nat) :
    ctxSeq llm upd (stepCtx llm upd c0) i = ctxSeq llm upd c0 (i + 1) := by
  induction i with
  | zero => rfl
  | succ i ih => simp only [ctxSeq, ih]

/-- Is this event an `llmCaller` invocation? -/
def LoopEvent.isLlm {R C : Type} : LoopEvent R C → Bool
  | .llmCall _ _ => true
  | _ => false

/-- Is this event an `updateContext` invocation? -/
def LoopEvent.isUpdate {R C : Type} : LoopEvent R C → Bool
  | .updateCall _ _ _ => true
  | _ => false

/-- The context argument the callback was invoked with. -/
def LoopEvent.context {R C : Type} : LoopEvent R C → C
  | .llmCall c _ => c
  | .stopCall _ c _ => c
  | .updateCall _ c _ => c

/-- Number of `llmCaller` invocations recorded in a trace. -/
def countLlm {R C : Type} (tr : List (LoopEvent R C)) : Nat :=
  tr.countP LoopEvent.isLlm

/-- Number of `updateContext` invocations recorded in a trace. -/
def countUpdate {R C : Type} (tr : List (LoopEvent R C)) : Nat :=
  tr.countP LoopEvent.isUpdate

/-- The responses returned by the `llmCaller` invocations, in order. -/
def llmResponses {R C : Type} (tr : List (LoopEvent R C)) : List R :=
  tr.filterMap fun e => match e with
    | .llmCall _ r => some r
    | _ => none

/-- Basic shape of a run of the reference model: it performs some number
`k ≤ fuel` of iterations, each incrementing the counter and invoking
`llmCaller` exactly once, and the budget-exhausted reason is reported exactly
when the fuel ran out. -/
theorem loopSpec_iterations {R C : Type} (llm : C → R) (stop : R → C → Bool)
    (upd : Option (R → C → C)) :
    ∀ (fuel : Nat) (c : C) (lr : Option R) (n : Nat),
      ∃ k ≤ fuel,
        (loopSpec llm stop upd fuel c lr n).1.iterations = n + k ∧
        countLlm (loopSpec llm stop upd fuel c lr n).2 = k ∧
        ((loopSpec llm stop upd fuel c lr n).1.reason = .max_loops → k = fuel) := by
  intro fuel
  induction fuel with
  | zero =>
    intro c lr n
    exact ⟨0, Nat.le_refl 0, by simp [loopSpec, countLlm]⟩
  | succ fuel ih =>
    intro c lr n
    by_cases hstop : stop (llm c) c
    · refine ⟨1, Nat.one_le_iff_ne_zero.mpr (by simp), ?_⟩
      simp [loopSpec, hstop, countLlm, LoopEvent.isLlm]
    · cases upd with
      | none =>
        obtain ⟨k, hk, hiter, hcount, hreason⟩ := ih c (some (llm c)) (n + 1)
        refine ⟨k + 1, by omega, ?_, ?_, ?_⟩
        · simp [loopSpec, hstop, hiter]; omega
        · simp [loopSpec, hstop, countLlm, LoopEvent.isLlm] at hcount ⊢
          omega
        · intro hr
          simp [loopSpec, hstop] at hr
          have := hreason hr
          omega
      | some f =>
        obtain ⟨k, hk, hiter, hcount, hreason⟩ := ih (f (llm c) c) (some (llm c)) (n + 1)
        refine ⟨k + 1, by omega, ?_, ?_, ?_⟩
        · simp [loopSpec, hstop, hiter]; omega
        · simp [loopSpec, hstop, countLlm, LoopEvent.isLlm] at hcount ⊢
          omega
        · intro hr
          simp [loopSpec, hstop] at hr
          have := hreason hr
          omega

/-- If the predicate first holds on the (0-indexed) step `j < fuel`, the run
stops there: the result carries the pre-transition context `ctxSeq c j`, the
response produced from it, reason `'stop_condition'`, `j + 1` iterations
beyond `n`, and `updateContext` ran once per earlier step only. -/
theorem loopSpec_first_stop {R C : Type} (llm : C → R) (stop : R → C → Bool)
    (upd : Option (R → C → C)) :
    ∀ (j fuel : Nat) (c : C) (lr : Option R) (n : Nat), j < fuel →
      (∀ i, i < j → stop (llm (ctxSeq llm upd c i)) (ctxSeq llm upd c i) = false) →
      stop (llm (ctxSeq llm upd c j)) (ctxSeq llm upd c j) = true →
      (loopSpec llm stop upd fuel c lr n).1.finalContext = ctxSeq llm upd c j ∧
      (loopSpec llm stop upd fuel c lr n).1.lastResponse = some (llm (ctxSeq llm upd c j)) ∧
      (loopSpec llm stop upd fuel c lr n).1.reason = .stop_condition ∧
      (loopSpec llm stop upd fuel c lr n).1.iterations = n + j + 1 ∧
      countUpdate (loopSpec llm stop upd fuel c lr n).2 =
        (if upd.isSome then j else 0) := by
  intro j
  induction j with
  | zero =>
    intro fuel c lr n hj hfalse htrue
    obtain ⟨fuel, rfl⟩ : ∃ fuel', fuel = fuel' + 1 := ⟨fuel - 1, by omega⟩
    simp only [ctxSeq] at htrue ⊢
    refine ⟨?_, ?_, ?_, ?_, ?_⟩ <;>
      cases upd <;>
        simp [loopSpec, htrue, countUpdate, LoopEvent.isUpdate]
  | succ j ih =>
    intro fuel c lr n hj hfalse htrue
    obtain ⟨fuel, rfl⟩ : ∃ fuel', fuel = fuel' + 1 := ⟨fuel - 1, by omega⟩
    have h0 : stop (llm c) c = false := by
      have := hfalse 0 (by omega)
      simpa [ctxSeq] using this
    cases upd with
    | none =>
      have hconst : ∀ i, ctxSeq llm none c i = c := by
        intro i
        induction i with
        | zero => rfl
        | succ i ihc => simp [ctxSeq, stepCtx, ihc]
      rw [hconst] at htrue
      rw [h0] at htrue
      cases htrue
    | some f =>
      have hshift := ctxSeq_shift llm (some f) c
      have hstep : stepCtx llm (some f) c = f (llm c) c := rfl
      obtain ⟨h1, h2, h3, h4, h5⟩ :=
        ih fuel (f (llm c) c) (some (llm c)) (n + 1) (by omega)
          (fun i hi => by
            rw [hstep] at hshift
            rw [hshift]
            exact hfalse (i + 1) (by omega))
          (by rw [hstep] at hshift; rw [hshift]; exact htrue)
      rw [hstep] at hshift
      refine ⟨?_, ?_, ?_, ?_, ?_⟩
      · simp [loopSpec, h0, h1, hshift]
      · simp [loopSpec, h0, h2, hshift]
      · simp [loopSpec, h0, h3]
      · simp [loopSpec, h0, h4]; omega
      · simp [loopSpec, h0, countUpdate, LoopEvent.isUpdate] at h5 ⊢
        omega

/-- If the predicate fails on every step the budget allows, the run exhausts
the budget: reason `'max_loops'`, exactly `fuel` further iterations, final
context `ctxSeq c fuel`, and `updateContext` ran once per iteration. -/
theorem loopSpec_never_stop {R C : Type} (llm : C → R) (stop : R → C → Bool)
    (upd : Option (R → C → C)) :
    ∀ (fuel : Nat) (c : C) (lr : Option R) (n : Nat),
      (∀ i, i < fuel → stop (llm (ctxSeq llm upd c i)) (ctxSeq llm upd c i) = false) →
      (loopSpec llm stop upd fuel c lr n).1.reason = .max_loops ∧
      (loopSpec llm stop upd fuel c lr n).1.iterations = n + fuel ∧
      (loopSpec llm stop upd fuel c lr n).1.finalContext = ctxSeq llm upd c fuel ∧
      countUpdate (loopSpec llm stop upd fuel c lr n).2 =
        (if upd.isSome then fuel else 0) := by
  intro fuel
  induction fuel with
  | zero =>
    intro c lr n hfalse
    cases upd <;> simp [loopSpec, ctxSeq, countUpdate]
  | succ fuel ih =>
    intro c lr n hfalse
    have h0 : stop (llm c) c = false := by
      have := hfalse 0 (by omega)
      simpa [ctxSeq] using this
    cases upd with
    | none =>
      have hconst : ∀ i, ctxSeq llm none c i = c := by
        intro i
        induction i with
        | zero => rfl
        | succ i ihc => simp [ctxSeq, stepCtx, ihc]
      obtain ⟨h1, h2, h3, h4⟩ :=
        ih c (some (llm c)) (n + 1)
          (fun i hi => by rw [hconst]; exact h0)
      refine ⟨?_, ?_, ?_, ?_⟩
      · simp [loopSpec, h0, h1]
      · simp [loopSpec, h0, h2]; omega
      · simp [loopSpec, h0, h3, hconst]
      · simp [loopSpec, h0, countUpdate, LoopEvent.isUpdate] at h4 ⊢
        exact h4
    | some f =>
      have hshift := ctxSeq_shift llm (some f) c
      have hstep : stepCtx llm (some f) c = f (llm c) c := rfl
      rw [hstep] at hshift
      obtain ⟨h1, h2, h3, h4⟩ :=
        ih (f (llm c) c) (some (llm c)) (n + 1)
          (fun i hi => by rw [hshift]; exact hfalse (i + 1) (by omega))
      refine ⟨?_, ?_, ?_, ?_⟩
      · simp [loopSpec, h0, h1]
      · simp [loopSpec, h0, h2]; omega
      · simp [loopSpec, h0, h3, hshift]
      · simp [loopSpec, h0, countUpdate, LoopEvent.isUpdate] at h4 ⊢
        omega

/-- Every `stopCall` event in a trace is immediately preceded by the
`llmCall` event of the same iteration, carrying the same context and the
response being judged: the predicate always sees the pre-transition state
that was passed to `llmCaller` on that iteration. -/
theorem loopSpec_stopCall_adjacent {R C : Type} (llm : C → R)
    (stop : R → C → Bool) (upd : Option (R → C → C)) :
    ∀ (fuel : Nat) (c : C) (lr : Option R) (n : Nat) (i : Nat) (r : R)
      (c' : C) (b : Bool),
      (loopSpec llm stop upd fuel c lr n).2[i]? = some (.stopCall r c' b) →
      ∃ j, i = j + 1 ∧
        (loopSpec llm stop upd fuel c lr n).2[j]? = some (.llmCall c' r) := by
  intro fuel
  induction fuel with
  | zero =>
    intro c lr n i r c' b h
    simp [loopSpec] at h
  | succ fuel ih =>
    intro c lr n i r c' b h
    by_cases hstop : stop (llm c) c
    · simp only [loopSpec, if_pos hstop] at h ⊢
      match i with
      | 0 => simp at h
      | 1 =>
        simp at h
        obtain ⟨hr, hc, hb⟩ := h
        exact ⟨0, rfl, by simp [← hc, ← hr]⟩
      | (k + 2) => simp at h
    · cases upd with
      | none =>
        simp only [loopSpec, if_neg hstop] at h ⊢
        match i with
        | 0 => simp at h
        | 1 =>
          simp at h
          obtain ⟨hr, hc, hb⟩ := h
          exact ⟨0, rfl, by simp [← hc, ← hr]⟩
        | (k + 2) =>
          simp only [List.getElem?_cons_succ] at h
          obtain ⟨j, rfl, hj⟩ := ih c (some (llm c)) (n + 1) k r c' b h
          exact ⟨j + 2, rfl, by simpa [List.getElem?_cons_succ] using hj⟩
      | some f =>
        simp only [loopSpec, if_neg hstop] at h ⊢
        match i with
        | 0 => simp at h
        | 1 =>
          simp at h
          obtain ⟨hr, hc, hb⟩ := h
          exact ⟨0, rfl, by simp [← hc, ← hr]⟩
        | 2 => simp at h
        | (k + 3) =>
          simp only [List.getElem?_cons_succ] at h
          obtain ⟨j, rfl, hj⟩ :=
            ih (f (llm c) c) (some (llm c)) (n + 1) k r c' b h
          exact ⟨j + 3, rfl, by simpa [List.getElem?_cons_succ] using hj⟩

/-- When a run stops via the predicate, its trace ends with that
`stopCall` event — no `updateContext` invocation follows it — and the
reported final context is exactly the context that event was judged at. -/
theorem loopSpec_stop_suffix {R C : Type} (llm : C → R) (stop : R → C → Bool)
    (upd : Option (R → C → C)) :
    ∀ (fuel : Nat) (c : C) (lr : Option R) (n : Nat),
      (loopSpec llm stop upd fuel c lr n).1.reason = .stop_condition →
      ∃ r tr0, (loopSpec llm stop upd fuel c lr n).2 =
        tr0 ++ [.stopCall r (loopSpec llm stop upd fuel c lr n).1.finalContext true] := by
  intro fuel
  induction fuel with
  | zero =>
    intro c lr n h
    simp [loopSpec] at h
  | succ fuel ih =>
    intro c lr n h
    by_cases hstop : stop (llm c) c
    · refine ⟨llm c, [.llmCall c (llm c)], ?_⟩
      simp [loopSpec, hstop]
    · cases upd with
      | none =>
        simp only [loopSpec, if_neg hstop] at h ⊢
        obtain ⟨r, tr0, htr⟩ := ih c (some (llm c)) (n + 1) h
        exact ⟨r, .llmCall c (llm c) :: .stopCall (llm c) c false :: tr0,
          by simp [htr]⟩
      | some f =>
        simp only [loopSpec, if_neg hstop] at h ⊢
        obtain ⟨r, tr0, htr⟩ := ih (f (llm c) c) (some (llm c)) (n + 1) h
        exact ⟨r, .llmCall c (llm c) :: .stopCall (llm c) c false ::
          .updateCall (llm c) c (f (llm c) c) :: tr0, by simp [htr]⟩

/-- With no `updateContext` supplied, the context never changes: every
callback invocation receives the starting context and the final context is
the starting context, whatever the responses were. -/
theorem loopSpec_ctx_const {R C : Type} (llm : C → R) (stop : R → C → Bool) :
    ∀ (fuel : Nat) (c : C) (lr : Option R) (n : Nat),
      (loopSpec llm stop none fuel c lr n).1.finalContext = c ∧
      ∀ e ∈ (loopSpec llm stop none fuel c lr n).2, e.context = c := by
  intro fuel
  induction fuel with
  | zero =>
    intro c lr n
    simp [loopSpec]
  | succ fuel ih =>
    intro c lr n
    by_cases hstop : stop (llm c) c
    · simp [loopSpec, hstop, LoopEvent.context]
    · obtain ⟨h1, h2⟩ := ih c (some (llm c)) (n + 1)
      refine ⟨by simp [loopSpec, hstop, h1], ?_⟩
      intro e he
      simp only [loopSpec, if_neg hstop, List.mem_cons] at he
      rcases he with rfl | rfl | he
      · rfl
      · rfl
      · exact h2 e he

/-- The `lastResponse` field of the result is the response of the most
recent `llmCall` event, or the incoming `lr` if no iteration ran. -/
theorem loopSpec_lastResponse {R C : Type} (llm : C → R) (stop : R → C → Bool)
    (upd : Option (R → C → C)) :
    ∀ (fuel : Nat) (c : C) (lr : Option R) (n : Nat),
      (loopSpec llm stop upd fuel c lr n).1.lastResponse =
        ((llmResponses (loopSpec llm stop upd fuel c lr n).2).getLast? <|> lr) := by
  intro fuel
  induction fuel with
  | zero =>
    intro c lr n
    simp [loopSpec, llmResponses]
  | succ fuel ih =>
    intro c lr n
    by_cases hstop : stop (llm c) c
    · simp [loopSpec, hstop, llmResponses]
    · have key : ∀ (L : List R) (r : R) (a : Option R),
          ((r :: L).getLast? <|> a) = (L.getLast? <|> some r) := by
        intro L r a
        cases L with
        | nil => simp
        | cons y ys =>
          rw [List.getLast?_cons_cons]
          cases h : (y :: ys).getLast? with
          | none => exact absurd (List.getLast?_eq_none_iff.mp h) (by simp)
          | some x => simp
      cases upd with
      | none =>
        have hih := ih c (some (llm c)) (n + 1)
        simp only [loopSpec, if_neg hstop]
        simp only [llmResponses, List.filterMap_cons] at hih ⊢
        rw [hih, ← key _ _ lr]
      | some f =>
        have hih := ih (f (llm c) c) (some (llm c)) (n + 1)
        simp only [loopSpec, if_neg hstop]
        simp only [llmResponses, List.filterMap_cons] at hih ⊢
        rw [hih, ← key _ _ lr]

/-- Each `llmCall` event contributes exactly one recorded response. -/
theorem llmResponses_length {R C : Type} (tr : List (LoopEvent R C)) :
    (llmResponses tr).length = countLlm tr := by
  induction tr with
  | nil => simp [llmResponses, countLlm]
  | cons e tr ih =>
    cases e <;>
      simp [llmResponses, countLlm, List.filterMap_cons, List.countP_cons,
        LoopEvent.isLlm] at ih ⊢ <;>
      omega

/-- Claim C1: for every configuration in which `stopCondition` returns true
for the first time on iteration `k` (1-indexed, `k ≤ maxLoops`) and false on
every earlier iteration, `agentLoop` returns with `iterations = k`,
`reason = 'stop_condition'`, and `updateContext` is invoked exactly `k - 1`
times, never on the terminating iteration. -/
theorem agentLoop_stops_on_first_true {R C : Type} (llm : C → R)
    (stop : R → C → Bool) (M : Int) (f : R → C → C) (c0 : C) (k : Nat)
    (hk1 : 1 ≤ k) (hkM : (k : Int) ≤ M)
    (hfalse : ∀ i < k - 1,
      stop (llm (ctxSeq llm (some f) c0 i)) (ctxSeq llm (some f) c0 i) = false)
    (htrue : stop (llm (ctxSeq llm (some f) c0 (k - 1)))
      (ctxSeq llm (some f) c0 (k - 1)) = true) :
    (tracedAgentLoop llm stop M (some f) c0).1.iterations = k ∧
    (tracedAgentLoop llm stop M (some f) c0).1.reason = .stop_condition ∧
    countUpdate (tracedAgentLoop llm stop M (some f) c0).2 = k - 1 := by
  rw [tracedAgentLoop_eq]
  obtain ⟨h1, h2, h3, h4, h5⟩ :=
    loopSpec_first_stop llm stop (some f) (k - 1) M.toNat c0 none 0
      (by omega) hfalse htrue
  refine ⟨by rw [h4]; omega, h3, by rw [h5]; simp⟩

/-- Witness for C1: responder `c + 1`, transition carries the response into
the context, predicate fires on response 3, so on iteration `k = 3`. -/
theorem agentLoop_stops_on_first_true_witness :
    (tracedAgentLoop (fun c : Nat => c + 1) (fun r _ => r == 3) 10
      (some fun r _ => r) 0).1.iterations = 3 ∧
    (tracedAgentLoop (fun c : Nat => c + 1) (fun r _ => r == 3) 10
      (some fun r _ => r) 0).1.reason = .stop_condition ∧
    countUpdate (tracedAgentLoop (fun c : Nat => c + 1) (fun r _ => r == 3) 10
      (some fun r _ => r) 0).2 = 3 - 1 :=
  agentLoop_stops_on_first_true (fun c : Nat => c + 1) (fun r _ => r == 3) 10
    (fun r _ => r) 0 3 (by omega) (by omega) (by decide) (by decide)

/-- Claim C2: for every configuration in which `stopCondition` never returns
true within the `maxLoops` iteration budget (`maxLoops` defaulting to 10 when
not supplied), `agentLoop` returns with `reason = 'max_loops'`,
`iterations = maxLoops`, and `updateContext` is invoked exactly `maxLoops`
times, including once after the final iteration. -/
theorem agentLoop_exhausts_budget {R C : Type} (llm : C → R)
    (stop : R → C → Bool) (M : Int) (f : R → C → C) (c0 : C)
    (hM : 0 ≤ M)
    (hfalse : ∀ i : Nat, (i : Int) < M →
      stop (llm (ctxSeq llm (some f) c0 i)) (ctxSeq llm (some f) c0 i) = false) :
    (tracedAgentLoop llm stop M (some f) c0).1.reason = .max_loops ∧
    ((tracedAgentLoop llm stop M (some f) c0).1.iterations : Int) = M ∧
    (countUpdate (tracedAgentLoop llm stop M (some f) c0).2 : Int) = M ∧
    (∀ (mo : Type → Type) [Monad mo] (R' C' : Type) (g : C' → mo R')
       (s : R' → C' → mo Bool) (c : C'),
       ({ llmCaller := g, stopCondition := s, initialContext := c } :
         AgentLoopOptions mo R' C').maxLoops = 10) := by
  rw [tracedAgentLoop_eq]
  obtain ⟨h1, h2, h3, h4⟩ :=
    loopSpec_never_stop llm stop (some f) M.toNat c0 none 0
      (fun i hi => hfalse i (by omega))
  refine ⟨h1, by rw [h2]; omega, by rw [h4]; simp; omega, ?_⟩
  intro mo _ R' C' g s c
  rfl

/-- Witness for C2: an always-false predicate with budget 5 exhausts it. -/
theorem agentLoop_exhausts_budget_witness :
    (tracedAgentLoop (fun c : Nat => c) (fun _ _ => false) 5
      (some fun _ c => c + 1) 0).1.reason = .max_loops ∧
    ((tracedAgentLoop (fun c : Nat => c) (fun _ _ => false) 5
      (some fun _ c => c + 1) 0).1.iterations : Int) = 5 ∧
    (countUpdate (tracedAgentLoop (fun c : Nat => c) (fun _ _ => false) 5
      (some fun _ c => c + 1) 0).2 : Int) = 5 ∧
    (∀ (mo : Type → Type) [Monad mo] (R' C' : Type) (g : C' → mo R')
       (s : R' → C' → mo Bool) (c : C'),
       ({ llmCaller := g, stopCondition := s, initialContext := c } :
         AgentLoopOptions mo R' C').maxLoops = 10) :=
  agentLoop_exhausts_budget (fun c : Nat => c) (fun _ _ => false) 5
    (fun _ c => c + 1) 0 (by decide) (fun i _ => rfl)

/-- Claim C3: on every iteration `stopCondition` is evaluated with the
pre-transition state, the very context passed to `llmCaller` on that
iteration (every `stopCall` event is immediately preceded by the matching
`llmCall` event); and when it returns true the loop returns that same
context as `finalContext`, with no `updateContext` invocation after the
terminating check (the trace ends at that `stopCall`). -/
theorem agentLoop_predicate_sees_pretransition {R C : Type} (llm : C → R)
    (stop : R → C → Bool) (M : Int) (upd : Option (R → C → C)) (c0 : C) :
    (∀ (i : Nat) (r : R) (c : C) (b : Bool),
      (tracedAgentLoop llm stop M upd c0).2[i]? = some (.stopCall r c b) →
      ∃ j, i = j + 1 ∧
        (tracedAgentLoop llm stop M upd c0).2[j]? = some (.llmCall c r)) ∧
    ((tracedAgentLoop llm stop M upd c0).1.reason = .stop_condition →
      ∃ r tr0, (tracedAgentLoop llm stop M upd c0).2 =
        tr0 ++ [.stopCall r (tracedAgentLoop llm stop M upd c0).1.finalContext true]) := by
  rw [tracedAgentLoop_eq]
  exact ⟨fun i r c b h =>
      loopSpec_stopCall_adjacent llm stop upd M.toNat c0 none 0 i r c b h,
    fun h => loopSpec_stop_suffix llm stop upd M.toNat c0 none 0 h⟩

/-- Witness for C3: a run that stops on its first iteration; the `stopCall`
at index 1 is preceded by the matching `llmCall`, and the trace ends at the
terminating `stopCall` carrying the final context. -/
theorem agentLoop_predicate_sees_pretransition_witness :
    (∃ j, 1 = j + 1 ∧
      (tracedAgentLoop (fun c : Nat => c) (fun _ _ => true) 1 none 0).2[j]? =
        some (.llmCall 0 0)) ∧
    (∃ r tr0, (tracedAgentLoop (fun c : Nat => c) (fun _ _ => true) 1 none 0).2 =
      tr0 ++ [.stopCall r
        (tracedAgentLoop (fun c : Nat => c) (fun _ _ => true) 1 none 0).1.finalContext
        true]) :=
  ⟨(agentLoop_predicate_sees_pretransition (fun c : Nat => c) (fun _ _ => true)
      1 none 0).1 1 0 0 true (by rw [tracedAgentLoop_eq]; decide),
   (agentLoop_predicate_sees_pretransition (fun c : Nat => c) (fun _ _ => true)
      1 none 0).2 (by rw [tracedAgentLoop_eq]; decide)⟩

/-- Counterexample to C4 as stated: with `maxLoops = -1` (accepted by the
code without validation) the loop performs 0 iterations, and
`0 ≤ iterations ≤ maxLoops` fails because `iterations = 0 > -1 = maxLoops`. -/
theorem agentLoop_iterations_bound_cex :
    ((tracedAgentLoop (fun c : Nat => c) (fun _ _ => false) (-1) none 0).1.iterations
      : Int) = 0 ∧
    ¬ (((tracedAgentLoop (fun c : Nat => c) (fun _ _ => false) (-1) none 0).1.iterations
      : Int) ≤ -1) := by
  rw [tracedAgentLoop_eq]
  decide

/-- Claim C4 (amended): `iterations` equals the exact number of `llmCaller`
invocations, and `0 ≤ iterations ≤ maxLoops.toNat` — i.e. at most
`max maxLoops 0`; the bound `maxLoops` itself holds whenever `maxLoops ≥ 0`. -/
theorem agentLoop_iterations_eq_llm_calls {R C : Type} (llm : C → R)
    (stop : R → C → Bool) (M : Int) (upd : Option (R → C → C)) (c0 : C) :
    countLlm (tracedAgentLoop llm stop M upd c0).2 =
      (tracedAgentLoop llm stop M upd c0).1.iterations ∧
    (tracedAgentLoop llm stop M upd c0).1.iterations ≤ M.toNat := by
  rw [tracedAgentLoop_eq]
  obtain ⟨k, hk, hiter, hcount, _⟩ := loopSpec_iterations llm stop upd M.toNat c0 none 0
  exact ⟨by rw [hcount, hiter]; omega, by rw [hiter]; omega⟩

/-- Claim C5: with `maxLoops = 0` the loop performs no work in any monad:
it returns `finalContext = initialContext`, no `lastResponse`,
`reason = 'max_loops'`, `iterations = 0`, and (second conjunct) the trace of
callback invocations is empty, so `llmCaller` is invoked zero times. -/
theorem agentLoop_zero_budget :
    (∀ (mo : Type → Type) [Monad mo] (R C : Type) (g : C → mo R)
       (s : R → C → mo Bool) (u : Option (R → C → mo C)) (c0 : C),
       agentLoop { llmCaller := g, stopCondition := s, maxLoops := 0,
                   updateContext := u, initialContext := c0 } =
         (pure ⟨c0, none, .max_loops, 0⟩ : mo (AgentLoopResult R C))) ∧
    (∀ (R C : Type) (llm : C → R) (stop : R → C → Bool)
       (u : Option (R → C → C)) (c0 : C),
       (tracedAgentLoop llm stop 0 u c0).2 = []) := by
  constructor
  · intro mo _ R C g s u c0
    rw [agentLoop, agentLoop.go]
    simp
  · intro R C llm stop u c0
    rw [tracedAgentLoop_eq]
    rfl

/-- Claim C10: a negative `maxLoops` is not rejected and behaves exactly as
`maxLoops = 0`: zero `llmCaller` invocations (empty trace), and the result is
`finalContext = initialContext`, `lastResponse = none`,
`reason = 'max_loops'`, `iterations = 0`. -/
theorem agentLoop_negative_budget (M : Int) (hM : M < 0) :
    (∀ (mo : Type → Type) [Monad mo] (R C : Type) (g : C → mo R)
       (s : R → C → mo Bool) (u : Option (R → C → mo C)) (c0 : C),
       agentLoop { llmCaller := g, stopCondition := s, maxLoops := M,
                   updateContext := u, initialContext := c0 } =
         (pure ⟨c0, none, .max_loops, 0⟩ : mo (AgentLoopResult R C))) ∧
    (∀ (R C : Type) (llm : C → R) (stop : R → C → Bool)
       (u : Option (R → C → C)) (c0 : C),
       (tracedAgentLoop llm stop M u c0).2 = []) := by
  constructor
  · intro mo _ R C g s u c0
    rw [agentLoop, agentLoop.go]
    have : ¬ ((0 : Nat) : Int) <
        ({ llmCaller := g, stopCondition := s, maxLoops := M,
           updateContext := u, initialContext := c0 } :
          AgentLoopOptions mo R C).maxLoops := by
      simp only []
      omega
    rw [dif_neg this]
  · intro R C llm stop u c0
    have h0 : M.toNat = 0 := by omega
    rw [tracedAgentLoop_eq, h0]
    rfl

/-- Witness for C10 at `maxLoops = -1`. -/
theorem agentLoop_negative_budget_witness :
    agentLoop { llmCaller := fun c : Nat => (c : Id Nat),
                stopCondition := fun _ _ => (true : Id Bool), maxLoops := -1,
                updateContext := none, initialContext := 3 } =
      (pure ⟨3, none, .max_loops, 0⟩ : Id (AgentLoopResult Nat Nat)) ∧
    (tracedAgentLoop (fun c : Nat => c) (fun _ _ => true) (-1) none 3).2 = [] :=
  ⟨(agentLoop_negative_budget (-1) (by decide)).1 Id Nat Nat
      (fun c => c) (fun _ _ => true) none 3,
   (agentLoop_negative_budget (-1) (by decide)).2 Nat Nat
      (fun c => c) (fun _ _ => true) none 3⟩

/-- Claim C6: with `updateContext` omitted, every callback invocation
receives `initialContext` as its context argument, and the returned
`finalContext` equals `initialContext`, regardless of the responses. -/
theorem agentLoop_no_update_keeps_context {R C : Type} (llm : C → R)
    (stop : R → C → Bool) (M : Int) (c0 : C) :
    (tracedAgentLoop llm stop M none c0).1.finalContext = c0 ∧
    ∀ e ∈ (tracedAgentLoop llm stop M none c0).2, e.context = c0 := by
  rw [tracedAgentLoop_eq]
  exact loopSpec_ctx_const llm stop M.toNat c0 none 0

/-- Witness for C6: two full iterations with changing responses; the second
`llmCall` event still carries the initial context 5. -/
theorem agentLoop_no_update_keeps_context_witness :
    (tracedAgentLoop (fun c : Nat => c + 1) (fun _ _ => false) 2 none 5).1.finalContext
      = 5 ∧
    (LoopEvent.llmCall 5 6).context = 5 :=
  ⟨(agentLoop_no_update_keeps_context (fun c : Nat => c + 1)
      (fun _ _ => false) 2 5).1,
   (agentLoop_no_update_keeps_context (fun c : Nat => c + 1)
      (fun _ _ => false) 2 5).2 (LoopEvent.llmCall 5 6)
     (by rw [tracedAgentLoop_eq]; decide)⟩

/-- Claim C7: `lastResponse` is absent exactly when zero iterations ran, and
otherwise equals the response of the most recent `llmCaller` invocation,
under both termination reasons. -/
theorem agentLoop_lastResponse_is_latest {R C : Type} (llm : C → R)
    (stop : R → C → Bool) (M : Int) (upd : Option (R → C → C)) (c0 : C) :
    ((tracedAgentLoop llm stop M upd c0).1.lastResponse = none ↔
      (tracedAgentLoop llm stop M upd c0).1.iterations = 0) ∧
    (tracedAgentLoop llm stop M upd c0).1.lastResponse =
      (llmResponses (tracedAgentLoop llm stop M upd c0).2).getLast? := by
  rw [tracedAgentLoop_eq]
  have hlast := loopSpec_lastResponse llm stop upd M.toNat c0 none 0
  have h2 : (loopSpec llm stop upd M.toNat c0 none 0).1.lastResponse =
      (llmResponses (loopSpec llm stop upd M.toNat c0 none 0).2).getLast? := by
    rw [hlast]
    cases h : (llmResponses (loopSpec llm stop upd M.toNat c0 none 0).2).getLast? <;>
      simp
  obtain ⟨k, hk, hiter, hcount, _⟩ := loopSpec_iterations llm stop upd M.toNat c0 none 0
  refine ⟨?_, h2⟩
  rw [h2, hiter]
  constructor
  · intro h
    have hnil := List.getLast?_eq_none_iff.mp h
    have hlen : (llmResponses (loopSpec llm stop upd M.toNat c0 none 0).2).length = 0 := by
      rw [hnil]; rfl
    rw [llmResponses_length, hcount] at hlen
    omega
  · intro h
    have hk0 : countLlm (loopSpec llm stop upd M.toNat c0 none 0).2 = 0 := by
      rw [hcount]; omega
    rw [← llmResponses_length] at hk0
    rw [List.length_eq_zero.mp hk0]
    rfl

/-- Counterexample to C9 as stated: with `maxLoops = -1` the loop invokes
`llmCaller` 0 times, which is not "at most `maxLoops` times" since
`0 > -1`. -/
theorem agentLoop_llm_call_bound_cex :
    (countLlm (tracedAgentLoop (fun c : Nat => c + 2) (fun _ _ => true) (-1) none 7).2
      : Int) = 0 ∧
    ¬ ((countLlm (tracedAgentLoop (fun c : Nat => c + 2) (fun _ _ => true) (-1) none 7).2
      : Int) ≤ -1) := by
  rw [tracedAgentLoop_eq]
  decide

/-- Claim C9 (amended): for every configuration of terminating callbacks,
`agentLoop` terminates (it is a total function of its inputs), invoking
`llmCaller` at most `maxLoops.toNat` — i.e. `max maxLoops 0` — times. -/
theorem agentLoop_terminates_bounded {R C : Type} (llm : C → R)
    (stop : R → C → Bool) (M : Int) (upd : Option (R → C → C)) (c0 : C) :
    countLlm (tracedAgentLoop llm stop M upd c0).2 ≤ M.toNat := by
  rw [tracedAgentLoop_eq]
  obtain ⟨k, hk, _, hcount, _⟩ := loopSpec_iterations llm stop upd M.toNat c0 none 0
  omega

theorem exceptErrorBind {ε α β : Type} (e : ε) (f : α → Except ε β) :
    (Except.error e >>= f) = Except.error e := rfl

theorem exceptOkBind {ε α β : Type} (a : α) (f : α → Except ε β) :
    (Except.ok a >>= f) = f a := rfl

/-- Claim C8: when a callback fails (modelled by the `Except` monad:
a rejected promise), the failure propagates unmodified and immediately out
of the loop, from any reachable loop state (`agentLoop` itself starts at
`agentLoop.go options options.initialContext none 0`): no catching,
wrapping, or retry, and no outcome record is produced — the result is
`Except.error e`, not an `Except.ok` outcome. -/
theorem agentLoop_propagates_failure {ε R C : Type}
    (options : AgentLoopOptions (Except ε) R C) :
    (agentLoop options = agentLoop.go options options.initialContext none 0) ∧
    (∀ (c : C) (lr : Option R) (n : Nat) (e : ε),
      (n : Int) < options.maxLoops →
      options.llmCaller c = .error e →
      agentLoop.go options c lr n = .error e) ∧
    (∀ (c : C) (lr : Option R) (n : Nat) (r : R) (e : ε),
      (n : Int) < options.maxLoops →
      options.llmCaller c = .ok r →
      options.stopCondition r c = .error e →
      agentLoop.go options c lr n = .error e) ∧
    (∀ (c : C) (lr : Option R) (n : Nat) (r : R) (e : ε)
       (f : R → C → Except ε C),
      (n : Int) < options.maxLoops →
      options.llmCaller c = .ok r →
      options.stopCondition r c = .ok false →
      options.updateContext = some f →
      f r c = .error e →
      agentLoop.go options c lr n = .error e) := by
  refine ⟨rfl, ?_, ?_, ?_⟩
  · intro c lr n e hlt herr
    rw [agentLoop.go, dif_pos hlt]
    simp [herr, exceptErrorBind]
  · intro c lr n r e hlt hok herr
    rw [agentLoop.go, dif_pos hlt]
    simp [hok, exceptOkBind, herr, exceptErrorBind]
  · intro c lr n r e f hlt hok hstop hupd herr
    rw [agentLoop.go, dif_pos hlt]
    simp [hok, exceptOkBind, hstop, hupd, herr, exceptErrorBind]

/-- Witness for C8: three concrete configurations over `Except String`,
failing respectively in `llmCaller`, `stopCondition` and `updateContext`;
each failure is returned verbatim by the loop. -/
theorem agentLoop_propagates_failure_witness :
    agentLoop.go
      ({ llmCaller := fun _ => .error "llm failed",
         stopCondition := fun _ _ => .ok true, maxLoops := 5,
         updateContext := none, initialContext := 0 } :
        AgentLoopOptions (Except String) Nat Nat) 0 none 0 =
      .error "llm failed" ∧
    agentLoop.go
      ({ llmCaller := fun c => .ok (c + 1),
         stopCondition := fun _ _ => .error "predicate failed", maxLoops := 5,
         updateContext := none, initialContext := 0 } :
        AgentLoopOptions (Except String) Nat Nat) 0 none 0 =
      .error "predicate failed" ∧
    agentLoop.go
      ({ llmCaller := fun c => .ok (c + 1),
         stopCondition := fun _ _ => .ok false, maxLoops := 5,
         updateContext := some fun _ _ => .error "transition failed",
         initialContext := 0 } :
        AgentLoopOptions (Except String) Nat Nat) 0 none 0 =
      .error "transition failed" :=
  ⟨(agentLoop_propagates_failure _).2.1 0 none 0 "llm failed"
      (by decide) rfl,
   (agentLoop_propagates_failure _).2.2.1 0 none 0 1 "predicate failed"
      (by decide) rfl rfl,
   (agentLoop_propagates_failure _).2.2.2 0 none 0 1 "transition failed"
      (fun _ _ => .error "transition failed") (by decide) rfl rfl rfl rfl⟩
